import Mathlib

/-!
Verification of the plotting core of `Oldgraph.h`.

The angle utilities (`constrainAngle`, `angleConv`, `angleDiff`, `unwrap`)
are translated directly from the inline C++ bodies in the header.  The C
library function `fmod` is modelled over the reals: `fmod x y` is
`x - y * trunc (x / y)` where `trunc` rounds toward zero, which is exactly
the C semantics for finite arguments; the C constant `M_PI` is modelled as
the real number `Real.pi`.
-/

namespace Oldgraph

open Real

/-- Truncation toward zero on the reals, as used by the C `fmod`. -/
noncomputable def rtrunc (q : ℝ) : ℤ :=
  if 0 ≤ q then ⌊q⌋ else ⌈q⌉

/-- Model of the C library `fmod` for finite real arguments:
`fmod x y = x - y * trunc (x / y)`. -/
noncomputable def fmod (x y : ℝ) : ℝ :=
  x - y * (rtrunc (x / y) : ℝ)

/-- `constrainAngle` from `Oldgraph.h`:
`x = fmod(x + M_PI, 2*M_PI); if (x < 0) x += 2*M_PI; return x - M_PI;`. -/
noncomputable def constrainAngle (x : ℝ) : ℝ :=
  let x1 := fmod (x + π) (2 * π)
  let x2 := if x1 < 0 then x1 + 2 * π else x1
  x2 - π

/-- `angleConv` from `Oldgraph.h`: `return fmod(constrainAngle(angle), 2*M_PI);`. -/
noncomputable def angleConv (angle : ℝ) : ℝ :=
  fmod (constrainAngle angle) (2 * π)

/-- `angleDiff` from `Oldgraph.h`:
`dif = fmod(b - a + M_PI, 2*M_PI); if (dif < 0) dif += 2*M_PI; return dif - M_PI;`. -/
noncomputable def angleDiff (a b : ℝ) : ℝ :=
  let dif := fmod (b - a + π) (2 * π)
  let dif2 := if dif < 0 then dif + 2 * π else dif
  dif2 - π

/-- `unwrap` from `Oldgraph.h`:
`return previousAngle - angleDiff(newAngle, angleConv(previousAngle));`. -/
noncomputable def unwrap (previousAngle newAngle : ℝ) : ℝ :=
  previousAngle - angleDiff newAngle (angleConv previousAngle)

/-! ### Basic properties of the `fmod` model -/

lemma rtrunc_sub_bounds (q : ℝ) : -1 < q - rtrunc q ∧ q - rtrunc q < 1 := by
  unfold rtrunc
  by_cases h : 0 ≤ q
  · simp only [if_pos h]
    constructor
    · linarith [Int.floor_le q]
    · linarith [Int.lt_floor_add_one q]
  · simp only [if_neg h]
    constructor
    · linarith [Int.ceil_lt_add_one q]
    · linarith [Int.le_ceil q]

lemma fmod_eq_mul (x y : ℝ) (hy : y ≠ 0) :
    fmod x y = y * (x / y - (rtrunc (x / y) : ℝ)) := by
  unfold fmod
  field_simp

lemma fmod_congruent (x y : ℝ) : ∃ k : ℤ, fmod x y = x - y * k :=
  ⟨rtrunc (x / y), rfl⟩

lemma fmod_lt (x y : ℝ) (hy : 0 < y) : fmod x y < y := by
  rw [fmod_eq_mul x y (ne_of_gt hy)]
  have h := (rtrunc_sub_bounds (x / y)).2
  calc y * (x / y - (rtrunc (x / y) : ℝ)) < y * 1 := by
        exact mul_lt_mul_of_pos_left h hy
    _ = y := mul_one y

lemma neg_lt_fmod (x y : ℝ) (hy : 0 < y) : -y < fmod x y := by
  rw [fmod_eq_mul x y (ne_of_gt hy)]
  have h := (rtrunc_sub_bounds (x / y)).1
  have : y * (-1 : ℝ) < y * (x / y - (rtrunc (x / y) : ℝ)) :=
    mul_lt_mul_of_pos_left h hy
  linarith

lemma rtrunc_eq_zero (q : ℝ) (h1 : -1 < q) (h2 : q < 1) : rtrunc q = 0 := by
  unfold rtrunc
  by_cases h : 0 ≤ q
  · simp only [if_pos h]
    exact Int.floor_eq_zero_iff.mpr ⟨h, h2⟩
  · simp only [if_neg h]
    exact Int.ceil_eq_zero_iff.mpr ⟨h1, le_of_not_le h⟩

lemma fmod_eq_self (x y : ℝ) (hy : 0 < y) (h1 : -y < x) (h2 : x < y) :
    fmod x y = x := by
  unfold fmod
  have hq : rtrunc (x / y) = 0 := by
    apply rtrunc_eq_zero
    · rw [neg_lt, ← neg_div]
      exact (div_lt_one hy).mpr (by linarith)
    · exact (div_lt_one hy).mpr h2
  rw [hq]
  simp

lemma fmod_eq_sub (x y : ℝ) (hy : 0 < y) (h1 : y ≤ x) (h2 : x < 2 * y) :
    fmod x y = x - y := by
  unfold fmod
  have hq : rtrunc (x / y) = 1 := by
    unfold rtrunc
    have hnn : 0 ≤ x / y := div_nonneg (by linarith) (le_of_lt hy)
    rw [if_pos hnn]
    rw [Int.floor_eq_iff]
    constructor
    · push_cast
      exact (le_div_iff₀ hy).mpr (by linarith)
    · push_cast
      exact (div_lt_iff₀ hy).mpr (by linarith)
  rw [hq]
  push_cast
  ring

lemma fmod_nonneg (x y : ℝ) (hy : 0 < y) (hx : 0 ≤ x) : 0 ≤ fmod x y := by
  unfold fmod rtrunc
  have hnn : 0 ≤ x / y := div_nonneg hx (le_of_lt hy)
  rw [if_pos hnn]
  have := Int.floor_le (x / y)
  have h2 : y * (⌊x / y⌋ : ℝ) ≤ y * (x / y) := mul_le_mul_of_nonneg_left this (le_of_lt hy)
  have h3 : y * (x / y) = x := by field_simp
  linarith

/-! ### The normalisation pattern shared by `constrainAngle` and `angleDiff` -/

lemma normStep_bounds (z y : ℝ) (hy : 0 < y) :
    0 ≤ (if fmod z y < 0 then fmod z y + y else fmod z y) ∧
    (if fmod z y < 0 then fmod z y + y else fmod z y) < y := by
  by_cases h : fmod z y < 0
  · rw [if_pos h]
    constructor
    · linarith [neg_lt_fmod z y hy]
    · linarith
  · rw [if_neg h]
    exact ⟨le_of_not_lt h, fmod_lt z y hy⟩

lemma normStep_congruent (z y : ℝ) :
    ∃ k : ℤ, (if fmod z y < 0 then fmod z y + y else fmod z y) = z - y * k := by
  obtain ⟨k, hk⟩ := fmod_congruent z y
  by_cases h : fmod z y < 0
  · refine ⟨k - 1, ?_⟩
    rw [if_pos h, hk]
    push_cast
    ring
  · exact ⟨k, by rw [if_neg h, hk]⟩

lemma constrainAngle_def (x : ℝ) :
    constrainAngle x =
      (if fmod (x + π) (2 * π) < 0 then fmod (x + π) (2 * π) + 2 * π
       else fmod (x + π) (2 * π)) - π := rfl

lemma angleDiff_def (a b : ℝ) :
    angleDiff a b =
      (if fmod (b - a + π) (2 * π) < 0 then fmod (b - a + π) (2 * π) + 2 * π
       else fmod (b - a + π) (2 * π)) - π := rfl

lemma constrainAngle_mem (x : ℝ) : -π ≤ constrainAngle x ∧ constrainAngle x < π := by
  rw [constrainAngle_def]
  have h := normStep_bounds (x + π) (2 * π) (by positivity)
  exact ⟨by linarith [h.1], by linarith [h.2]⟩

lemma constrainAngle_congruent (x : ℝ) : ∃ k : ℤ, constrainAngle x = x - 2 * π * k := by
  rw [constrainAngle_def]
  obtain ⟨k, hk⟩ := normStep_congruent (x + π) (2 * π)
  exact ⟨k, by rw [hk]; ring⟩

lemma angleDiff_mem (a b : ℝ) : -π ≤ angleDiff a b ∧ angleDiff a b < π := by
  rw [angleDiff_def]
  have h := normStep_bounds (b - a + π) (2 * π) (by positivity)
  exact ⟨by linarith [h.1], by linarith [h.2]⟩

lemma angleDiff_congr (a b : ℝ) : ∃ k : ℤ, angleDiff a b = (b - a) - 2 * π * k := by
  rw [angleDiff_def]
  obtain ⟨k, hk⟩ := normStep_congruent (b - a + π) (2 * π)
  exact ⟨k, by rw [hk]; ring⟩

lemma constrainAngle_fixed (x : ℝ) (h1 : -π ≤ x) (h2 : x < π) : constrainAngle x = x := by
  rw [constrainAngle_def]
  have hpi := pi_pos
  have hf : fmod (x + π) (2 * π) = x + π :=
    fmod_eq_self _ _ (by positivity) (by linarith) (by linarith)
  rw [hf, if_neg (by linarith : ¬ x + π < 0)]
  ring

lemma angleConv_eq (x : ℝ) : angleConv x = constrainAngle x := by
  unfold angleConv
  have hpi := pi_pos
  have h := constrainAngle_mem x
  exact fmod_eq_self _ _ (by positivity) (by linarith [h.1]) (by linarith [h.2])

/-! ### Claims C1-C4 and C10: the angle utilities -/

/-- Claim C2, counterexample: at the input `-π`, `constrainAngle` returns `-π`
itself, which is not strictly greater than `-π`, so the output is not in the
claimed half-open-above range `(-π, π]`. -/
theorem constrainAngle_negPi_counterexample :
    constrainAngle (-π) = -π ∧
    ¬(-π < constrainAngle (-π) ∧ constrainAngle (-π) ≤ π) := by
  have hpi := pi_pos
  have hc : constrainAngle (-π) = -π := by
    rw [constrainAngle_def]
    have h0 : -π + π = (0 : ℝ) := by ring
    rw [h0]
    have hf : fmod 0 (2 * π) = 0 :=
      fmod_eq_self _ _ (by positivity) (by linarith) (by linarith)
    rw [hf, if_neg (by norm_num)]
    ring
  refine ⟨hc, ?_⟩
  rw [hc]
  intro h
  exact lt_irrefl _ h.1

/-- Claim C2 (amended): for every real input, `constrainAngle` returns a value
in the half-open-below principal range `[-π, π)`: the result is at least `-π`
and strictly less than `π`. -/
theorem constrainAngle_range (x : ℝ) :
    -π ≤ constrainAngle x ∧ constrainAngle x < π :=
  constrainAngle_mem x

/-- Claim C3: `constrainAngle` (the implementation of `normalize`) is
idempotent on every real input. -/
theorem constrainAngle_idempotent (x : ℝ) :
    constrainAngle (constrainAngle x) = constrainAngle x :=
  constrainAngle_fixed _ (constrainAngle_mem x).1 (constrainAngle_mem x).2

/-- Claim C4, counterexample: `angleDiff 0 π` evaluates to `-π`, which is
congruent to `π - 0` modulo `2π` but lies outside the claimed range
`(-π, π]` because it is not strictly greater than `-π`. -/
theorem angleDiff_counterexample :
    angleDiff 0 π = -π ∧
    ¬(-π < angleDiff 0 π ∧ angleDiff 0 π ≤ π) := by
  have hpi := pi_pos
  have hc : angleDiff 0 π = -π := by
    rw [angleDiff_def]
    have h0 : π - 0 + π = 2 * π := by ring
    rw [h0]
    have hf : fmod (2 * π) (2 * π) = 2 * π - 2 * π :=
      fmod_eq_sub _ _ (by positivity) (by linarith) (by linarith)
    rw [hf]
    rw [if_neg (by norm_num)]
    ring
  refine ⟨hc, ?_⟩
  rw [hc]
  intro h
  exact lt_irrefl _ h.1

/-- Claim C4 (amended): for all real `a` and `b`, `angleDiff a b` lies in the
half-open-below range `[-π, π)` and is congruent to `b - a` modulo `2π`
(hence it is the shortest signed angular distance, with ties at `±π`
represented as `-π`). -/
theorem angleDiff_range_congruent (a b : ℝ) :
    (-π ≤ angleDiff a b ∧ angleDiff a b < π) ∧
    ∃ k : ℤ, angleDiff a b = (b - a) - 2 * π * k :=
  ⟨angleDiff_mem a b, angleDiff_congr a b⟩

/-- Claim C10: `angleConv` and `constrainAngle` are extensionally equal on the
reals: the outer `fmod` by `2π` in `angleConv` is the identity on
`constrainAngle`'s output range `[-π, π)`. -/
theorem angleConv_eq_constrainAngle (x : ℝ) :
    angleConv x = constrainAngle x :=
  angleConv_eq x

/-- Claim C1: for all real `previousUnwrapped` and `newRaw`, the result of
`unwrap previousUnwrapped newRaw` is within `π` of `previousUnwrapped` and
differs from `newRaw` by an integer multiple of `2π`. -/
theorem unwrap_within_pi_congruent (p n : ℝ) :
    |unwrap p n - p| ≤ π ∧ ∃ k : ℤ, unwrap p n - n = 2 * π * (k : ℝ) := by
  unfold unwrap
  constructor
  · have h := angleDiff_mem n (angleConv p)
    rw [abs_le]
    exact ⟨by linarith [h.2], by linarith [h.1]⟩
  · rw [angleConv_eq p]
    obtain ⟨k1, hk1⟩ := angleDiff_congr n (constrainAngle p)
    obtain ⟨k2, hk2⟩ := constrainAngle_congruent p
    refine ⟨k1 + k2, ?_⟩
    rw [hk1, hk2]
    push_cast
    ring

/-! ### Claim C5: the concrete phase sequence `[3.0, -3.1, 3.0]` -/

/-- Modelled from the spec: the renderer applies `unwrap` left-to-right
across a phase sample sequence, the first raw sample taken as-is seeding the
recursion (the rendering routine `drawGraph` is declared but not implemented
in the header; `unwrap` itself is the source function). -/
noncomputable def unwrapFrom (prev : ℝ) : List ℝ → List ℝ
  | [] => []
  | y :: ys => unwrap prev y :: unwrapFrom (unwrap prev y) ys

/-- Modelled from the spec: unwrapping of a whole raw phase sample sequence;
the first sample is taken as-is. -/
noncomputable def unwrapList : List ℝ → List ℝ
  | [] => []
  | x :: xs => x :: unwrapFrom x xs

lemma constrainAngle_three : constrainAngle (3 : ℝ) = 3 :=
  constrainAngle_fixed 3 (by linarith [pi_pos]) (by linarith [pi_gt_three])

lemma unwrap_step1 : unwrap 3 (-3.1) = 2 * π - 3.1 := by
  unfold unwrap
  rw [angleConv_eq, constrainAngle_three]
  have hd : angleDiff (-3.1) 3 = 6.1 - 2 * π := by
    rw [angleDiff_def]
    have h0 : (3 : ℝ) - (-3.1) + π = 6.1 + π := by ring
    rw [h0]
    have hf : fmod (6.1 + π) (2 * π) = 6.1 + π - 2 * π :=
      fmod_eq_sub _ _ (by positivity) (by linarith [pi_lt_d2]) (by linarith [pi_gt_three])
    rw [hf, if_neg (by simp only [not_lt]; linarith [pi_lt_d2])]
    ring
  rw [hd]
  ring

lemma constrainAngle_u1 : constrainAngle (2 * π - 3.1) = -3.1 := by
  rw [constrainAngle_def]
  have h0 : 2 * π - 3.1 + π = 3 * π - 3.1 := by ring
  rw [h0]
  have hf : fmod (3 * π - 3.1) (2 * π) = 3 * π - 3.1 - 2 * π :=
    fmod_eq_sub _ _ (by positivity) (by linarith [pi_gt_d2]) (by linarith [pi_pos])
  rw [hf, if_neg (by simp only [not_lt]; linarith [pi_gt_d2])]
  ring

lemma unwrap_step2 : unwrap (2 * π - 3.1) 3 = 3 := by
  unfold unwrap
  rw [angleConv_eq, constrainAngle_u1]
  have hd : angleDiff 3 (-3.1) = 2 * π - 6.1 := by
    rw [angleDiff_def]
    have h0 : (-3.1 : ℝ) - 3 + π = π - 6.1 := by ring
    rw [h0]
    have hf : fmod (π - 6.1) (2 * π) = π - 6.1 :=
      fmod_eq_self _ _ (by positivity) (by linarith [pi_gt_three]) (by linarith [pi_pos])
    rw [hf, if_pos (by linarith [pi_lt_d2])]
    ring
  rw [hd]
  ring

/-- Claim C5: folding `unwrap` left-to-right over the raw phase samples
`[3.0, -3.1, 3.0]`, seeded with the first sample taken as-is, yields exactly
`[3, 2π - 3.1, 3]` — approximately `[3.0, 3.18, 3.0]`, since
`3.18 < 2π - 3.1 < 3.19` — and every two consecutive unwrapped outputs
differ by less than `2π * 0.1`: no spurious `±2π` jump. -/
theorem unwrap_sequence_continuous :
    unwrapList [3, -3.1, 3] = [3, 2 * π - 3.1, 3] ∧
    (3.18 < 2 * π - 3.1 ∧ 2 * π - 3.1 < 3.19) ∧
    List.Chain' (fun u v => |v - u| < 2 * π * 0.1) (unwrapList [3, -3.1, 3]) := by
  have h1 : unwrapList [3, -3.1, 3] = [3, 2 * π - 3.1, 3] := by
    simp only [unwrapList, unwrapFrom]
    rw [unwrap_step1, unwrap_step2]
  refine ⟨h1, ⟨by linarith [pi_gt_d2], by linarith [pi_lt_d6]⟩, ?_⟩
  rw [h1]
  have hb1 := pi_gt_d2
  have hb2 := pi_lt_d2
  constructor
  · rw [abs_lt]
    constructor <;> linarith
  constructor
  · rw [abs_lt]
    constructor <;> linarith
  exact List.chain'_singleton _

/-! ### PlotRegistry: the LookupTable (claims C6-C8) -/

/-- Modelled from the spec: `slotFor(id)` resolves a dataset identity to its
slot, the position of the identity in the LookupTable `_lookupTable`
(the header declares the table and the operations but their bodies are not
in the source; identities are modelled as natural numbers). -/
def slotFor : List Nat → Nat → Option Nat
  | [], _ => none
  | x :: xs, uid => if x = uid then some 0 else (slotFor xs uid).map (· + 1)

/-- Modelled from the spec: `assignSlot(id)` appends `id` to the LookupTable
if not already present and returns its slot (the existing slot when already
present). -/
def assignSlot (t : List Nat) (uid : Nat) : List Nat × Nat :=
  match slotFor t uid with
  | some s => (t, s)
  | none => (t ++ [uid], t.length)

/-- Modelled from the spec: `releaseSlot(id)` removes `id` from the
LookupTable, shifting all subsequent slots down by one; no-op when `id` is
absent. -/
def releaseSlot (t : List Nat) (uid : Nat) : List Nat :=
  t.erase uid

/-- A registry operation: one `assignSlot` or one `releaseSlot` call. -/
inductive RegOp where
  | assign (uid : Nat)
  | release (uid : Nat)

/-- Apply one registry operation to a LookupTable. -/
def applyOp (t : List Nat) : RegOp → List Nat
  | RegOp.assign uid => (assignSlot t uid).1
  | RegOp.release uid => releaseSlot t uid

/-- Run a sequence of registry operations starting from the empty registry. -/
def runOps (ops : List RegOp) : List Nat :=
  ops.foldl applyOp []

lemma slotFor_eq_none_iff (t : List Nat) (uid : Nat) :
    slotFor t uid = none ↔ uid ∉ t := by
  induction t with
  | nil => simp [slotFor]
  | cons x xs ih =>
    by_cases h : x = uid
    · subst h
      simp [slotFor]
    · simp [slotFor, h, Option.map_eq_none', ih, Ne.symm h]

lemma slotFor_lt (t : List Nat) (uid s : Nat) (h : slotFor t uid = some s) :
    s < t.length := by
  induction t generalizing s with
  | nil => simp [slotFor] at h
  | cons x xs ih =>
    by_cases hx : x = uid
    · subst hx
      simp [slotFor] at h
      simp only [List.length_cons]
      omega
    · simp [slotFor, hx, Option.map_eq_some'] at h
      obtain ⟨a, ha, hs⟩ := h
      have := ih a ha
      simp only [List.length_cons]
      omega

lemma slotFor_get (t : List Nat) (ht : t.Nodup) (s : Nat) (hs : s < t.length) :
    slotFor t t[s] = some s := by
  induction t generalizing s with
  | nil => simp at hs
  | cons x xs ih =>
    obtain ⟨hmem, hnd⟩ := List.nodup_cons.mp ht
    cases s with
    | zero => simp [slotFor]
    | succ s =>
      have hs2 : s < xs.length := by simpa using hs
      have hget : (x :: xs)[s + 1] = xs[s] := by simp
      rw [hget]
      have hx : x ≠ xs[s] := by
        intro he
        apply hmem
        rw [he]
        exact xs.get_mem s hs2
      simp [slotFor, hx, ih hnd s hs2]

lemma assignSlot_nodup (t : List Nat) (uid : Nat) (h : t.Nodup) :
    ((assignSlot t uid).1).Nodup := by
  unfold assignSlot
  cases hc : slotFor t uid with
  | some s => simpa
  | none =>
    have hmem : uid ∉ t := (slotFor_eq_none_iff t uid).mp hc
    refine List.Nodup.append h (List.nodup_singleton uid) ?_
    intro a ha hb
    simp only [List.mem_singleton] at hb
    subst hb
    exact hmem ha

lemma foldl_nodup (ops : List RegOp) (t : List Nat) (h : t.Nodup) :
    (ops.foldl applyOp t).Nodup := by
  induction ops generalizing t with
  | nil => simpa
  | cons op ops ih =>
    simp only [List.foldl_cons]
    apply ih
    cases op with
    | assign uid => exact assignSlot_nodup t uid h
    | release uid => exact List.Nodup.erase uid h

/-- Claim C6: after any finite sequence of `assignSlot` / `releaseSlot`
calls starting from the empty registry, the LookupTable contains no
duplicate identities and the occupied slots are exactly the contiguous
range `0..n-1`, where `n` is the number of displayed lines. -/
theorem registry_invariant (ops : List RegOp) :
    (runOps ops).Nodup ∧
    ∀ s : Nat, (∃ uid, slotFor (runOps ops) uid = some s) ↔
      s < (runOps ops).length := by
  have hnd : (runOps ops).Nodup := foldl_nodup ops [] (by simp)
  refine ⟨hnd, fun s => ⟨?_, ?_⟩⟩
  · rintro ⟨uid, huid⟩
    exact slotFor_lt _ _ _ huid
  · intro hs
    exact ⟨(runOps ops)[s], slotFor_get _ hnd s hs⟩

lemma slotFor_append_self (t : List Nat) (uid : Nat) (h : uid ∉ t) :
    slotFor (t ++ [uid]) uid = some t.length := by
  induction t with
  | nil => simp [slotFor]
  | cons x xs ih =>
    have hx : x ≠ uid := by
      intro he
      subst he
      exact h (List.mem_cons_self x xs)
    have hxs : uid ∉ xs := fun hm => h (List.mem_cons_of_mem _ hm)
    simp [slotFor, hx, ih hxs]

/-- Claim C7: `assignSlot` is idempotent — a second call with the same id
returns the same slot, changes nothing, and the table holds exactly one
entry for the id. -/
theorem assignSlot_idempotent (t : List Nat) (uid : Nat) (h : t.Nodup) :
    (assignSlot (assignSlot t uid).1 uid).2 = (assignSlot t uid).2 ∧
    (assignSlot (assignSlot t uid).1 uid).1 = (assignSlot t uid).1 ∧
    ((assignSlot t uid).1).count uid = 1 := by
  cases hc : slotFor t uid with
  | some s =>
    have hmem : uid ∈ t := by
      by_contra hm
      rw [← slotFor_eq_none_iff] at hm
      rw [hm] at hc
      exact Option.noConfusion hc
    refine ⟨by simp [assignSlot, hc], by simp [assignSlot, hc], ?_⟩
    have h1 : (assignSlot t uid).1 = t := by simp [assignSlot, hc]
    rw [h1]
    exact List.count_eq_one_of_mem h hmem
  | none =>
    have hmem := (slotFor_eq_none_iff t uid).mp hc
    have h2 := slotFor_append_self t uid hmem
    refine ⟨by simp [assignSlot, hc, h2], by simp [assignSlot, hc, h2], ?_⟩
    have h1 : (assignSlot t uid).1 = t ++ [uid] := by simp [assignSlot, hc]
    rw [h1, List.count_append]
    simp [List.count_eq_zero.mpr hmem]

/-- Witness for claim C7 at the concrete registry `[5]` and id `7`. -/
theorem assignSlot_idempotent_witness :
    ([5] : List Nat).Nodup ∧
    ((assignSlot (assignSlot [5] 7).1 7).2 = (assignSlot [5] 7).2 ∧
     (assignSlot (assignSlot [5] 7).1 7).1 = (assignSlot [5] 7).1 ∧
     ((assignSlot [5] 7).1).count 7 = 1) :=
  ⟨by decide, assignSlot_idempotent [5] 7 (by decide)⟩

/-- Claim C8: releasing an id that is not present in the LookupTable is a
no-op — the table is returned unchanged and no error is raised (the
function is total). -/
theorem releaseSlot_absent_noop (t : List Nat) (uid : Nat)
    (h : slotFor t uid = none) : releaseSlot t uid = t := by
  unfold releaseSlot
  exact List.erase_of_not_mem ((slotFor_eq_none_iff t uid).mp h)

/-- Witness for claim C8 at the concrete registry `[1, 2]` and id `5`. -/
theorem releaseSlot_absent_noop_witness :
    slotFor [1, 2] 5 = none ∧ releaseSlot [1, 2] 5 = [1, 2] :=
  ⟨by decide, releaseSlot_absent_noop [1, 2] 5 (by decide)⟩

/-! ### RangeOverlay: the drag state machine (claim C9) -/

/-- Modelled from the spec: the axis a range marker is bound to (the header
stores this binding as the flag `draggedY`). -/
inductive Axis where
  | x
  | y

/-- Modelled from the spec: the transient drag state — `Idle`, or `Dragging`
with the captured marker index and its bound axis (the header keeps this as
the `dragged` pointer plus the `draggedY` flag; the handlers
`handleMousePress` / `handleMouseMove` / `handleMouseRelease` are declared
but not implemented in the source). -/
inductive DragState where
  | Idle
  | Dragging (markerIndex : Nat) (axis : Axis)

/-- Modelled from the spec: a pointer event; a pointer-down carries the
hit-test result, i.e. the marker under the pointer and its bound axis, when
there is one. -/
inductive PointerEvent where
  | down (hit : Option (Nat × Axis))
  | move
  | up

/-- Modelled from the spec: one transition of the drag state machine.
Pointer-down in `Idle` captures the hit marker when the hit test succeeds;
pointer-move only matters while `Dragging` (it moves the marker but keeps
the state); pointer-up always ends the gesture. -/
def dragStep : DragState → PointerEvent → DragState
  | DragState.Idle, PointerEvent.down (some (m, a)) => DragState.Dragging m a
  | DragState.Idle, PointerEvent.down none => DragState.Idle
  | DragState.Idle, PointerEvent.move => DragState.Idle
  | DragState.Idle, PointerEvent.up => DragState.Idle
  | DragState.Dragging m a, PointerEvent.down _ => DragState.Dragging m a
  | DragState.Dragging m a, PointerEvent.move => DragState.Dragging m a
  | DragState.Dragging _ _, PointerEvent.up => DragState.Idle

/-- Claim C9: in the drag state machine, a pointer-up event transitions
every state to `Idle`; a pointer-move in `Idle` causes no transition; and a
pointer-down while already `Dragging` is ignored, leaving the dragged
marker and its axis binding unchanged. -/
theorem dragStep_transitions (s : DragState) (hit : Option (Nat × Axis))
    (m : Nat) (a : Axis) :
    dragStep s PointerEvent.up = DragState.Idle ∧
    dragStep DragState.Idle PointerEvent.move = DragState.Idle ∧
    dragStep (DragState.Dragging m a) (PointerEvent.down hit) =
      DragState.Dragging m a := by
  refine ⟨?_, rfl, ?_⟩
  · cases s <;> rfl
  · rcases hit with _ | ⟨m2, a2⟩ <;> rfl

end Oldgraph
